import Mathlib

/-
Verification of the chd2iso-fuse core against its specification.

The definitions below are a shallow embedding of src/main.rs:
pure string processing is translated directly; the CHD archive and its
hunk decompression are abstracted as total oracle functions (a claim that
needs failure handling makes the failure explicit in an Option/Except
result); u64 arithmetic that can underflow in Rust is modelled with an
explicit check whose failure arm is `none` (the Rust program panics or
aborts there, it does not return).
-/

namespace ChdFuse

/-- Bytes per raw CD frame (constant CD_FRAME_2352 in main.rs). -/
def CD_FRAME_2352 : Nat := 2352

/-- CD track kinds recognized by the TOC parser (enum TrackKind in main.rs). -/
inductive TrackKind where
  | audio
  | mode1
  | mode2form1
  | mode2form2
  | mode2raw
deriving DecidableEq

/-- Payload kinds of a data track (enum CdPayloadKind in main.rs). -/
inductive CdPayloadKind where
  | mode1_2048
  | mode2form1_2048
  | mode2form2_2324
deriving DecidableEq

/-- Backing kind of an indexed entry (enum BackingKind in main.rs). -/
inductive BackingKind where
  | dvd2048
  | cd2352 (first_data_lba : Nat) (payload_kind : CdPayloadKind) (track_frames : Option Nat)
  | raw2048
deriving DecidableEq

/-- One parsed CD track record (struct TrackInfo in main.rs). -/
structure TrackInfo where
  number : Nat
  kind : TrackKind
  frames : Nat
  pregap : Nat
  postgap : Nat
deriving DecidableEq

/-- One indexed virtual file (struct IndexEntry in main.rs; chd_path omitted). -/
structure IndexEntry where
  ino : Nat
  name : String
  kind : BackingKind
  iso_size : Nat
deriving DecidableEq

/-- The token separator predicate used by parse_track_line in main.rs. -/
def isSep (c : Char) : Bool :=
  c = ' ' || c = '\t' || c = '\n' || c = '\r' || c = ','

/-- Split a character list at every separator, keeping empty tokens,
exactly like the Rust str::split with a char predicate. -/
def splitChars (p : Char → Bool) : List Char → List (List Char)
  | [] => [[]]
  | c :: rest =>
    let r := splitChars p rest
    if p c then [] :: r
    else
      match r with
      | [] => [[c]]
      | t :: ts => (c :: t) :: ts

/-- Split a token at the first colon, like str::split_once in main.rs. -/
def splitOnceColon : List Char → Option (List Char × List Char)
  | [] => none
  | c :: rest =>
    if c = ':' then some ([], rest)
    else
      match splitOnceColon rest with
      | some (a, b) => some (c :: a, b)
      | none => none

/-- Rust u32::from_str: an optional leading plus sign, then one or more
decimal digits, value below 2^32; anything else is a parse error. -/
def parseU32 (v : List Char) : Option Nat :=
  let digits :=
    match v with
    | '+' :: rest => rest
    | l => l
  if digits = [] then none
  else if digits.all Char.isDigit then
    let n := digits.foldl (fun a c => a * 10 + (c.toNat - 48)) 0
    if n < 4294967296 then some n else none
  else none

/-- Substring containment on character lists (str::contains in main.rs). -/
def containsSub (hay needle : List Char) : Bool :=
  (List.range (hay.length + 1)).any (fun i => needle.isPrefixOf (hay.drop i))

/-- The TYPE value decoding table of parse_track_line in main.rs,
including the textual fallback for unknown MODE2 values. -/
def decodeType (v : List Char) : TrackKind :=
  if v = "MODE1".data then .mode1
  else if v = "MODE2/2048".data ∨ v = "MODE2_FORM1".data then .mode2form1
  else if v = "MODE2/2324".data ∨ v = "MODE2_FORM2".data then .mode2form2
  else if v = "MODE2/2352".data ∨ v = "MODE2_RAW".data ∨ v = "CDI/2352".data then .mode2raw
  else if v = "AUDIO".data then .audio
  else if "MODE2".data.isPrefixOf v ∧ containsSub v "2048".data then .mode2form1
  else if "MODE2".data.isPrefixOf v ∧ containsSub v "2324".data then .mode2form2
  else .audio

/-- Mutable locals of the token loop in parse_track_line. -/
structure TrackAcc where
  number : Option Nat
  frames : Nat
  pregap : Nat
  postgap : Nat
  kind : Option TrackKind

/-- One iteration of the token loop of parse_track_line in main.rs:
empty tokens and tokens without a colon are skipped; TRACK overwrites the
number with the parse result (possibly none); FRAMES, PREGAP and POSTGAP
overwrite with the parse result or 0; TYPE overwrites the kind. -/
def trackStep (acc : TrackAcc) (tok : List Char) : TrackAcc :=
  if tok = [] then acc
  else
    match splitOnceColon tok with
    | none => acc
    | some (k, v) =>
      if k = "TRACK".data then { acc with number := parseU32 v }
      else if k = "FRAMES".data then { acc with frames := (parseU32 v).getD 0 }
      else if k = "PREGAP".data then { acc with pregap := (parseU32 v).getD 0 }
      else if k = "POSTGAP".data then { acc with postgap := (parseU32 v).getD 0 }
      else if k = "TYPE".data then { acc with kind := some (decodeType v) }
      else acc

/-- The token list of one metadata line. -/
def toks (s : String) : List (List Char) :=
  splitChars isSep s.data

/-- Model of parse_track_line in main.rs: fold the token loop, then require
both a track number and a kind. -/
def parse_track_line (s : String) : Option TrackInfo :=
  let acc := (toks s).foldl trackStep ⟨none, 0, 0, 0, none⟩
  match acc.number, acc.kind with
  | some n, some k => some ⟨n, k, acc.frames, acc.pregap, acc.postgap⟩
  | _, _ => none

/-- Stable insertion of a track into a list sorted by track number. -/
def insertByNumber (t : TrackInfo) : List TrackInfo → List TrackInfo
  | [] => [t]
  | h :: rest => if t.number ≤ h.number then t :: h :: rest else h :: insertByNumber t rest

/-- Stable sort by track number (tracks.sort_by_key in main.rs). -/
def sortTracks : List TrackInfo → List TrackInfo
  | [] => []
  | t :: rest => insertByNumber t (sortTracks rest)

/-- The track walk of parse_cd_toc_from_metadata in main.rs: add the pregap,
return at the first track whose kind yields a payload, otherwise advance by
frames plus postgap.  A Mode2Form2 track yields a payload only when
allow_form2 is set; otherwise it is skipped like an audio track. -/
def tocWalk (allow : Bool) : List TrackInfo → Nat → Option (Nat × CdPayloadKind × Option Nat)
  | [], _ => none
  | t :: rest, lba0 =>
    let lba := lba0 + t.pregap
    let payload : Option CdPayloadKind :=
      match t.kind with
      | .audio => none
      | .mode1 => some .mode1_2048
      | .mode2form1 => some .mode2form1_2048
      | .mode2form2 => if allow then some .mode2form2_2324 else none
      | .mode2raw => none
    match payload with
    | some pk => some (lba, pk, some t.frames)
    | none => tocWalk allow rest (lba + t.frames + t.postgap)

/-- Model of parse_cd_toc_from_metadata in main.rs.  The metadata iteration
is abstracted to the list of track-tagged (CHTR/CHT2) blob strings. -/
def parse_cd_toc_from_metadata (lines : List String) (allow_form2 : Bool) :
    Option (Nat × CdPayloadKind × Option Nat) :=
  let tracks := lines.filterMap parse_track_line
  if tracks = [] then none
  else tocWalk allow_form2 (sortTracks tracks) 0

/-- The frame scan loop of quick_scan_first_data in main.rs, with hunk
decompression abstracted to the mode byte (offset 0x0F) of each frame.
The second argument is the number of frames left to scan. -/
def scanFrom (modeByte : Nat → Nat) (allow : Bool) : Nat → Nat → Option (Nat × CdPayloadKind)
  | _, 0 => none
  | frame, Nat.succ k =>
    let m := modeByte frame
    if m = 1 then some (frame, .mode1_2048)
    else if m = 2 then
      if allow then some (frame, .mode2form2_2324) else some (frame, .mode2form1_2048)
    else scanFrom modeByte allow (frame + 1) k

/-- Model of quick_scan_first_data in main.rs: scan the first
min(total_frames, 2000) frames and default to (0, Mode1_2048). -/
def quick_scan_first_data (modeByte : Nat → Nat) (total_frames : Nat) (allow : Bool) :
    Nat × CdPayloadKind :=
  (scanFrom modeByte allow 0 (min total_frames 2000)).getD (0, .mode1_2048)

/-- Model of FsState::build_index_entry in main.rs.  The archive header is
abstracted to (unit_bytes, logical_bytes), its CD-track metadata to
tocLines, and the frame scan to the modeByte oracle; a `none` result is the
Ok(None) of the Rust function, the hidden entry. -/
def build_index_entry (stem : String) (unit_bytes logical_bytes : Nat)
    (tocLines : List String) (modeByte : Nat → Nat) (allow_form2 : Bool) :
    Option (String × BackingKind × Nat) :=
  if unit_bytes = 2048 then some (stem ++ ".iso", BackingKind.dvd2048, logical_bytes)
  else if unit_bytes = 2352 then
    let total_frames := logical_bytes / 2352
    match parse_cd_toc_from_metadata tocLines allow_form2 with
    | some (first_lba, payload, track_frames) =>
      match payload with
      | .mode1_2048 | .mode2form1_2048 =>
        let frames := track_frames.getD (total_frames - first_lba)
        some (stem ++ ".iso", BackingKind.cd2352 first_lba payload track_frames, frames * 2048)
      | .mode2form2_2324 =>
        if allow_form2 then
          let frames := track_frames.getD (total_frames - first_lba)
          some (stem ++ " (Form2).bin", BackingKind.cd2352 first_lba payload track_frames,
            frames * 2324)
        else none
    | none =>
      let fp := quick_scan_first_data modeByte total_frames allow_form2
      match fp.2 with
      | .mode1_2048 | .mode2form1_2048 =>
        some (stem ++ ".iso", BackingKind.cd2352 fp.1 fp.2 none, (total_frames - fp.1) * 2048)
      | .mode2form2_2324 =>
        if allow_form2 then
          some (stem ++ " (Form2).bin", BackingKind.cd2352 fp.1 fp.2 none,
            (total_frames - fp.1) * 2324)
        else none
  else some (stem ++ ".iso", BackingKind.raw2048, logical_bytes)

/-- User payload bytes per frame of a payload kind (per_sector in main.rs). -/
def userBytes : CdPayloadKind → Nat
  | .mode1_2048 => 2048
  | .mode2form1_2048 => 2048
  | .mode2form2_2324 => 2324

/-- Byte offset of the user payload inside the 2352-byte frame
(payload_start in main.rs). -/
def payloadStart : CdPayloadKind → Nat
  | .mode1_2048 => 16
  | .mode2form1_2048 => 24
  | .mode2form2_2324 => 24

/-- The copy loop of FsState::read_iso_from_cd in main.rs.  Each iteration
takes min(per_sector - inner, want) payload bytes of the current frame at
payload offset payload_start + inner; the fuel equals want at the call site
and every iteration consumes at least one byte of want. -/
def cdLoop (frame : Nat → List Nat) (start_frame per_sector payload_start : Nat) :
    Nat → Nat → Nat → Nat → List Nat
  | _, _, _, 0 => []
  | cur, inner, want, Nat.succ fuel =>
    if want = 0 then []
    else
      let sec := frame (start_frame + cur)
      let payload := (sec.drop payload_start).take per_sector
      let tk := min (per_sector - inner) want
      (payload.drop inner).take tk ++
        cdLoop frame start_frame per_sector payload_start (cur + 1) 0 (want - tk) fuel

/-- Model of FsState::read_iso_from_cd in main.rs for reads in which every
needed frame decodes successfully; the frame cache and hunk decoding are
abstracted to a total frame oracle. -/
def read_iso_from_cd (frame : Nat → List Nat) (start_frame : Nat) (payload_kind : CdPayloadKind)
    (offset size max_len : Nat) : List Nat :=
  let per_sector := userBytes payload_kind
  let payload_start := payloadStart payload_kind
  if max_len ≤ offset ∨ size = 0 then []
  else
    let e := min (offset + size) max_len
    let want := e - offset
    cdLoop frame start_frame per_sector payload_start
      (offset / per_sector) (offset % per_sector) want want

/-- The hunk copy loop of the Dvd2048/Raw2048 branch of FsState::read in
main.rs; `none` models the Rust division-by-zero panic when hunk_size = 0.
The fuel equals the byte count at the call site. -/
def dvdLoop (hunk : Nat → List Nat) (hunk_size : Nat) : Nat → Nat → Nat → Option (List Nat)
  | _, left, 0 => if left = 0 then some [] else none
  | pos, left, Nat.succ fuel =>
    if left = 0 then some []
    else if hunk_size = 0 then none
    else
      let off := pos % hunk_size
      let tk := min (hunk_size - off) left
      (dvdLoop hunk hunk_size (pos + tk) (left - tk) fuel).map
        (fun rest => ((hunk (pos / hunk_size)).drop off).take tk ++ rest)

/-- Model of the Dvd2048/Raw2048 branch of FsState::read in main.rs, after
the outer size = 0 and offset < 0 checks.  The branch computes
end = min(offset + size, iso_size) and then the u64 difference end - offset:
when offset exceeds iso_size that subtraction underflows and the Rust
program panics (debug) or aborts on an absurd allocation (release), which
is modelled by the `none` arm. -/
def read_dvd_raw (hunk : Nat → List Nat) (hunk_size iso_size offset size : Nat) :
    Option (List Nat) :=
  if size = 0 then some []
  else
    let e := min (offset + size) iso_size
    if e < offset then none
    else dvdLoop hunk hunk_size offset (e - offset) (e - offset)

/-- The frame decoding part of FsState::get_cd_frame in main.rs, with the
hunk reader abstracted to a total oracle from hunk index to decompressed
buffer.  The error arm is the anyhow error for hunk_size below one frame. -/
def get_cd_frame_decode (hunk : Nat → List Nat) (hunk_size frame_index : Nat) :
    Except String (List Nat) :=
  let frames_per_hunk := hunk_size / CD_FRAME_2352
  if frames_per_hunk = 0 then Except.error "invalid hunk size for CD"
  else
    let hunk_index := frame_index / frames_per_hunk
    let frame_in_hunk := frame_index % frames_per_hunk
    let frame_off := frame_in_hunk * CD_FRAME_2352
    Except.ok (((hunk hunk_index).drop frame_off).take CD_FRAME_2352)

/-- The frame cache and its byte counter (fields frame_cache and
approx_cache_bytes of FsState).  The LruCache is modelled as an association
list in most-recently-used-first order. -/
structure CacheState where
  entries : List ((Nat × Nat) × List Nat)
  approx_cache_bytes : Nat
deriving DecidableEq

/-- Sum of the stored value lengths of the cache. -/
def sumLens (es : List ((Nat × Nat) × List Nat)) : Nat :=
  (es.map (fun e => e.2.length)).sum

/-- Find an entry by key and return its value and the list without it. -/
def findRemove (k : Nat × Nat) :
    List ((Nat × Nat) × List Nat) → Option (List Nat × List ((Nat × Nat) × List Nat))
  | [] => none
  | e :: rest =>
    if e.1 = k then some (e.2, rest)
    else
      match findRemove k rest with
      | some (v, rest2) => some (v, e :: rest2)
      | none => none

/-- Model of FsState::evict_cache_if_needed in main.rs: while the tracked
byte count exceeds cache_bytes, pop the least recently used entry and
subtract its length; stop when the cache is empty.  The fuel equals the
entry count at the call site, which bounds the possible pops. -/
def evict_cache_if_needed (cache_bytes : Nat) :
    Nat → List ((Nat × Nat) × List Nat) → Nat → List ((Nat × Nat) × List Nat) × Nat
  | 0, es, a => (es, a)
  | Nat.succ fuel, es, a =>
    if a ≤ cache_bytes then (es, a)
    else
      match es.getLast? with
      | none => (es, a)
      | some e => evict_cache_if_needed cache_bytes fuel es.dropLast (a - e.2.length)

/-- The put of the lru crate: a present key is updated and moved to the
front; otherwise, when the cache is at capacity, the least recently used
entry is dropped silently before the insertion. -/
def lruPut (cap : Nat) (k : Nat × Nat) (v : List Nat)
    (es : List ((Nat × Nat) × List Nat)) : List ((Nat × Nat) × List Nat) :=
  match findRemove k es with
  | some (_, rest) => (k, v) :: rest
  | none => if es.length = cap then (k, v) :: es.dropLast else (k, v) :: es

/-- Model of one FsState::get_cd_frame call in main.rs as a cache operation:
a hit moves the entry to the front and returns a copy; a miss decodes the
frame (abstracted to the given buffer), adds its length to the byte
counter, runs eviction, and inserts. -/
def get_cd_frame_op (cap cache_bytes : Nat) (k : Nat × Nat) (decoded : List Nat)
    (st : CacheState) : List Nat × CacheState :=
  match findRemove k st.entries with
  | some (v, rest) => (v, ⟨(k, v) :: rest, st.approx_cache_bytes⟩)
  | none =>
    let a1 := st.approx_cache_bytes + decoded.length
    let p := evict_cache_if_needed cache_bytes st.entries.length st.entries a1
    (decoded, ⟨lruPut cap k decoded p.1, p.2⟩)

/-- The LRU capacity of FsState::new in main.rs: NonZeroUsize::new of
cache_hunks, with 0 replaced by 64. -/
def cacheCap (cache_hunks : Nat) : Nat :=
  if cache_hunks = 0 then 64 else cache_hunks

/-- The empty cache of FsState::new. -/
def initCache : CacheState := ⟨[], 0⟩

/-- Run a sequence of get_cd_frame operations against the cache; each
operation is a key together with the buffer its miss would decode. -/
def runOps (cap cache_bytes : Nat) :
    List ((Nat × Nat) × List Nat) → CacheState → CacheState
  | [], st => st
  | op :: rest, st =>
    runOps cap cache_bytes rest (get_cd_frame_op cap cache_bytes op.1 op.2 st).2

/-- Model of Filesystem::lookup in main.rs: the parent inode argument is
ignored (the Rust parameter is the unused _parent) and the name is resolved
against the whole index. -/
def lookup (entries : List IndexEntry) (par : Nat) (name : String) : Option IndexEntry :=
  entries.find? (fun e => e.name = name)

/-- Model of fuser ReplyDirectory::add: the entry is appended while the
reply buffer has room, and the returned flag is true when it is full (the
entry was not added). -/
def replyAdd (cap : Nat) (acc : List (Nat × Int × String)) (ent : Nat × Int × String) :
    List (Nat × Int × String) × Bool :=
  if acc.length < cap then (acc ++ [ent], false) else (acc, true)

/-- The entry loop of Filesystem::readdir in main.rs: walk the index with a
running directory offset starting at 3, skip entries at offsets at most the
resume offset, and break when the reply buffer reports full. -/
def entLoop (cap : Nat) (idx : Int) :
    List IndexEntry → Int → List (Nat × Int × String) → List (Nat × Int × String)
  | [], _, acc => acc
  | e :: rest, ent_idx, acc =>
    if ent_idx ≤ idx then entLoop cap idx rest (ent_idx + 1) acc
    else
      let r := replyAdd cap acc (e.ino, ent_idx, e.name)
      if r.2 then r.1 else entLoop cap idx rest (ent_idx + 1) r.1

/-- Model of Filesystem::readdir in main.rs: non-root inodes get ENOTDIR
(the `none` arm); at resume offset 0 the synthetic dot entries are added at
offsets 1 and 2 with the full flag ignored; index entries follow at offsets
from 3. -/
def readdir (entries : List IndexEntry) (cap : Nat) (ino : Nat) (offset : Int) :
    Option (List (Nat × Int × String)) :=
  if ino ≠ 1 then none
  else
    let st0 : List (Nat × Int × String) := []
    let p :=
      if offset = 0 then
        let s1 := (replyAdd cap st0 (1, 1, ".")).1
        let s2 := (replyAdd cap s1 (1, 2, "..")).1
        (s2, (2 : Int))
      else (st0, offset)
    some (entLoop cap p.2 entries 3 p.1)

/-- Reference enumeration of the index entries with their directory
offsets, starting at the given offset. -/
def enumFrom : Int → List IndexEntry → List (Nat × Int × String)
  | _, [] => []
  | k, e :: rest => (e.ino, k, e.name) :: enumFrom (k + 1) rest

/-- One step of a fold that keeps the value of the last token carrying the
given key (used to state the corrected behavior of parse_track_line). -/
def lvStep (key : List Char) (acc : Option (List Char)) (tok : List Char) :
    Option (List Char) :=
  match splitOnceColon tok with
  | some kv => if kv.1 = key then some kv.2 else acc
  | none => acc

/-- The value of the last token with the given key among the tokens. -/
def lastValueFor (key : List Char) (ts : List (List Char)) : Option (List Char) :=
  ts.foldl (lvStep key) none

/-- C1: the claim says a read at offset at least the exposed size with a
positive size returns an empty result for every backing kind and that the
Dvd2048/Raw2048 branch does not underflow.  Evaluating the embedded
Dvd2048/Raw2048 read at iso_size = 4096, offset = 4097, size = 16 yields
the underflow arm (`none`, a Rust panic or abort), not an empty buffer,
while the boundary offset = 4096 does reply with the empty buffer. -/
theorem c1_dvd_read_underflow :
    read_dvd_raw (fun _ => []) 4096 4096 4097 16 = none ∧
    read_dvd_raw (fun _ => []) 4096 4096 4096 16 = some [] := ⟨rfl, rfl⟩

/-- C2: the claim says a CHD whose only data content is a Mode 2 Form 2
track is hidden when cd-allow-form2 is false.  Evaluating the embedded
classifier on such a CHD (one MODE2_FORM2 TOC track, every frame carrying
mode byte 0x02) with the option off produces a visible entry: the TOC walk
skips the disallowed Form 2 track instead of hiding the archive, and the
fallback scan classifies it as Mode2Form1_2048 and exposes game.iso. -/
theorem c2_form2_exposed :
    build_index_entry "game" 2352 235200
      ["TRACK:1 TYPE:MODE2_FORM2 FRAMES:100 PREGAP:0 POSTGAP:0"] (fun _ => 2) false
      = some ("game.iso", .cd2352 0 .mode2form1_2048 none, 204800) := rfl

/-- C4: on the TOC with an audio track (150 frames, 150 pregap) followed by
a MODE1 track (1000 frames, 150 pregap), the classifier returns
first_data_lba = 450, payload Mode1_2048 and track_frames = some 1000, and
the index entry builder (unit_bytes = 2352, logical_bytes for 2000 frames)
exposes x.iso of size 1000 * 2048 = 2048000 bytes, whichever way the
cd-allow-form2 flag is set. -/
theorem c4_toc_walk_example :
    ∀ allow : Bool,
    parse_cd_toc_from_metadata
      ["TRACK:1 TYPE:AUDIO FRAMES:150 PREGAP:150", "TRACK:2 TYPE:MODE1 FRAMES:1000 PREGAP:150"]
      allow = some (450, .mode1_2048, some 1000) ∧
    build_index_entry "x" 2352 4704000
      ["TRACK:1 TYPE:AUDIO FRAMES:150 PREGAP:150", "TRACK:2 TYPE:MODE1 FRAMES:1000 PREGAP:150"]
      (fun _ => 0) allow = some ("x.iso", .cd2352 450 .mode1_2048 (some 1000), 2048000) := by
  intro allow
  cases allow <;> refine And.intro (by decide) (by decide)

/-- C7 (amended): lookup ignores the parent inode entirely; it resolves the
name against the whole index, returning none exactly when no entry has the
name, and any returned entry is an index entry with exactly that name. -/
theorem c7_lookup_ignores_parent (entries : List IndexEntry) (p1 p2 : Nat) (name : String) :
    lookup entries p1 name = lookup entries p2 name ∧
    (lookup entries p1 name = none ↔ ∀ e ∈ entries, e.name ≠ name) ∧
    (∀ e, lookup entries p1 name = some e → e ∈ entries ∧ e.name = name) := by
  refine ⟨rfl, ?_, ?_⟩
  · unfold lookup
    rw [List.find?_eq_none]
    simp
  · intro e he
    unfold lookup at he
    exact ⟨List.mem_of_find?_eq_some he, by simpa using List.find?_some he⟩

/-- C7 counterexample: a lookup under the file inode 2 (not the root 1)
with a matching name still returns the index entry, against the claim that
every lookup with parent other than 1 is a not-found. -/
theorem c7_lookup_nonroot_cex :
    lookup [⟨2, "a.iso", BackingKind.dvd2048, 1000⟩] 2 "a.iso"
      = some ⟨2, "a.iso", BackingKind.dvd2048, 1000⟩ ∧ (2 : Nat) ≠ 1 := by
  exact ⟨rfl, by decide⟩

/-- C9: when hunk_size is below one 2352-byte frame the frame decoder
returns the anyhow error instead of dividing by zero, and when hunk_size is
at least one frame (with well-sized hunk buffers) it returns a full
2352-byte frame whose slice [frame_off, frame_off + 2352) lies inside the
hunk. -/
theorem c9_hunk_size_guard (hunk : Nat → List Nat) (hunk_size frame_index : Nat) :
    (hunk_size < 2352 → get_cd_frame_decode hunk hunk_size frame_index =
      Except.error "invalid hunk size for CD") ∧
    (2352 ≤ hunk_size → (∀ i, (hunk i).length = hunk_size) →
      ∃ l, get_cd_frame_decode hunk hunk_size frame_index = Except.ok l ∧
        l.length = 2352 ∧
        frame_index % (hunk_size / 2352) * 2352 + 2352 ≤ hunk_size) := by
  constructor
  · intro h
    have h0 : hunk_size / CD_FRAME_2352 = 0 := Nat.div_eq_of_lt h
    simp [get_cd_frame_decode, h0]
  · intro h hf
    have hpos : 0 < hunk_size / 2352 := Nat.div_pos h (by norm_num)
    have hne : hunk_size / 2352 ≠ 0 := Nat.pos_iff_ne_zero.mp hpos
    have hmod : frame_index % (hunk_size / 2352) < hunk_size / 2352 := Nat.mod_lt _ hpos
    have hbound : frame_index % (hunk_size / 2352) * 2352 + 2352 ≤ hunk_size := by
      have h1 : (frame_index % (hunk_size / 2352) + 1) * 2352 ≤ hunk_size / 2352 * 2352 :=
        Nat.mul_le_mul_right _ hmod
      have h2 : hunk_size / 2352 * 2352 ≤ hunk_size := Nat.div_mul_le_self hunk_size 2352
      omega
    have heq : get_cd_frame_decode hunk hunk_size frame_index =
        Except.ok (((hunk (frame_index / (hunk_size / 2352))).drop
          (frame_index % (hunk_size / 2352) * 2352)).take 2352) := by
      unfold get_cd_frame_decode CD_FRAME_2352
      rw [if_neg hne]
    refine ⟨_, heq, ?_, ?_⟩
    · simp only [List.length_take, List.length_drop, hf]
      omega
    · exact hbound

/-- The user payload width of every payload kind is positive. -/
lemma userBytes_pos (pk : CdPayloadKind) : 0 < userBytes pk := by
  cases pk <;> decide

/-- Payload offset plus payload width fits inside a 2352-byte frame for
every payload kind. -/
lemma payloadStart_userBytes_le (pk : CdPayloadKind) : payloadStart pk + userBytes pk ≤ 2352 := by
  cases pk <;> decide

/-- An in-bounds index makes get? return the getD value. -/
lemma get?_eq_some_getD {l : List Nat} {n : Nat} (h : n < l.length) :
    l.get? n = some (l.getD n 0) := by
  rw [List.getD_eq_get?]
  cases hx : l.get? n with
  | none =>
    have := List.get?_eq_none.mp hx
    omega
  | some x => rfl

/-- The copy loop of the CD reader produces exactly want bytes, and byte j
of the output is byte payload_start + ((inner + j) mod U) of frame
start + cur + (inner + j) div U, provided the fuel covers want, the
starting in-sector offset is below the sector width, and every frame is
2352 bytes. -/
lemma cdLoop_spec (frame : Nat → List Nat) (start U P : Nat)
    (hU : 0 < U) (hPU : P + U ≤ 2352) (hf : ∀ i, (frame i).length = 2352) :
    ∀ (fuel want cur inner : Nat), want ≤ fuel → inner < U →
      (cdLoop frame start U P cur inner want fuel).length = want ∧
      ∀ j, j < want →
        (cdLoop frame start U P cur inner want fuel).get? j =
          some ((frame (start + cur + (inner + j) / U)).getD (P + ((inner + j) % U)) 0) := by
  intro fuel
  induction fuel with
  | zero =>
    intro want cur inner hw hi
    have hw0 : want = 0 := by omega
    subst hw0
    exact ⟨rfl, fun j hj => absurd hj (by omega)⟩
  | succ fuel ih =>
    intro want cur inner hw hi
    by_cases hw0 : want = 0
    · subst hw0
      refine ⟨by simp [cdLoop], fun j hj => absurd hj (by omega)⟩
    · have hstep : cdLoop frame start U P cur inner want (fuel + 1) =
          (((((frame (start + cur)).drop P).take U).drop inner).take (min (U - inner) want))
            ++ cdLoop frame start U P (cur + 1) 0 (want - min (U - inner) want) fuel := by
        simp only [cdLoop]
        rw [if_neg hw0]
      have hseclen : (frame (start + cur)).length = 2352 := hf _
      have hpl : (((frame (start + cur)).drop P).take U).length = U := by
        simp only [List.length_take, List.length_drop, hseclen]
        omega
      have htk1 : 1 ≤ min (U - inner) want := le_min (by omega) (by omega)
      have htkw : min (U - inner) want ≤ want := min_le_right _ _
      have htkU : min (U - inner) want ≤ U - inner := min_le_left _ _
      have hrec := ih (want - min (U - inner) want) (cur + 1) 0 (by omega) hU
      have hseg_len : (((((frame (start + cur)).drop P).take U).drop inner).take
          (min (U - inner) want)).length = min (U - inner) want := by
        simp only [List.length_take, List.length_drop, hpl]
        omega
      constructor
      · rw [hstep]
        rw [List.length_append, hseg_len, hrec.1]
        omega
      · intro j hj
        rw [hstep]
        by_cases hjtk : j < min (U - inner) want
        · rw [List.get?_append (by rw [hseg_len]; exact hjtk)]
          have hinU : inner + j < U := by omega
          have hidx : P + (inner + j) < (frame (start + cur)).length := by
            rw [hseclen]; omega
          rw [List.get?_take hjtk, List.get?_drop, List.get?_take hinU, List.get?_drop]
          rw [get?_eq_some_getD hidx]
          rw [Nat.div_eq_of_lt hinU, Nat.mod_eq_of_lt hinU]
          rw [Nat.add_zero]
        · have hjtk2 : min (U - inner) want ≤ j := by omega
          rw [List.get?_append_right (by rw [hseg_len]; exact hjtk2), hseg_len]
          have hcontent := hrec.2 (j - min (U - inner) want) (by omega)
          rw [hcontent]
          have htkeq : min (U - inner) want = U - inner := by
            rcases le_total (U - inner) want with h | h
            · exact min_eq_left h
            · have := min_eq_right h
              omega
          have hiju : inner + j = (j - min (U - inner) want) + U := by omega
          rw [hiju, Nat.add_div_right _ hU, Nat.add_mod_right, Nat.zero_add]
          have harith : start + (cur + 1) + (j - min (U - inner) want) / U
              = start + cur + ((j - min (U - inner) want) / U + 1) := by ring
          rw [harith]

/-- C5: for a CD read in which every needed frame is obtained successfully,
the sector-view reader returns exactly min(size, max(0, max_len - offset))
bytes, and byte j of the output is the payload byte at offset
payload_start + ((offset + j) mod user_bytes) inside frame
start_frame + (offset + j) div user_bytes. -/
theorem c5_cd_read_length_content (frame : Nat → List Nat) (start_frame : Nat)
    (pk : CdPayloadKind) (offset size max_len : Nat)
    (hf : ∀ i, (frame i).length = 2352) :
    (read_iso_from_cd frame start_frame pk offset size max_len).length
        = min size (max_len - offset) ∧
    ∀ j, j < min size (max_len - offset) →
      (read_iso_from_cd frame start_frame pk offset size max_len).get? j =
        some ((frame (start_frame + (offset + j) / userBytes pk)).getD
          (payloadStart pk + ((offset + j) % userBytes pk)) 0) := by
  have hU : 0 < userBytes pk := userBytes_pos pk
  have hPU : payloadStart pk + userBytes pk ≤ 2352 := payloadStart_userBytes_le pk
  by_cases hguard : max_len ≤ offset ∨ size = 0
  · have hmin : min size (max_len - offset) = 0 := by
      rcases hguard with h | h
      · have h2 : max_len - offset = 0 := by omega
        simp [h2]
      · simp [h]
    simp only [read_iso_from_cd]
    rw [if_pos hguard]
    exact ⟨by simp [hmin], fun j hj => absurd hj (by omega)⟩
  · have hlt : offset < max_len := by omega
    have hs : size ≠ 0 := by omega
    have hwant : min (offset + size) max_len - offset = min size (max_len - offset) := by
      omega
    have hinner : offset % userBytes pk < userBytes pk := Nat.mod_lt _ hU
    have hspec := cdLoop_spec frame start_frame (userBytes pk) (payloadStart pk) hU hPU hf
      (min (offset + size) max_len - offset) (min (offset + size) max_len - offset)
      (offset / userBytes pk) (offset % userBytes pk) (le_refl _) hinner
    simp only [read_iso_from_cd]
    rw [if_neg hguard, hwant]
    rw [hwant] at hspec
    refine ⟨hspec.1, ?_⟩
    intro j hj
    rw [hspec.2 j hj]
    have hdiv : (offset + j) / userBytes pk
        = offset / userBytes pk + (offset % userBytes pk + j) / userBytes pk := by
      conv_lhs => rw [show offset = userBytes pk * (offset / userBytes pk)
        + offset % userBytes pk from (Nat.div_add_mod offset (userBytes pk)).symm]
      rw [Nat.add_assoc, Nat.mul_add_div hU]
    have hmod : (offset + j) % userBytes pk = (offset % userBytes pk + j) % userBytes pk := by
      conv_lhs => rw [show offset = userBytes pk * (offset / userBytes pk)
        + offset % userBytes pk from (Nat.div_add_mod offset (userBytes pk)).symm]
      rw [Nat.add_assoc, Nat.mul_add_mod]
    rw [hdiv, hmod, Nat.add_assoc]

/-- C5 witness: a 4-byte read at offset 0 over constant frames has length
min 4 (2048 - 0). -/
theorem c5_cd_read_length_content_witness :
    (∀ i : Nat, ((fun _ : Nat => List.replicate 2352 (7 : Nat)) i).length = 2352) ∧
    (read_iso_from_cd (fun _ => List.replicate 2352 7) 0 CdPayloadKind.mode1_2048
      0 4 2048).length = min 4 (2048 - 0) :=
  ⟨fun _ => List.length_replicate _ _,
   (c5_cd_read_length_content (fun _ => List.replicate 2352 7) 0 CdPayloadKind.mode1_2048
     0 4 2048 (fun _ => List.length_replicate _ _)).1⟩

/-- Folding the last-value step from any start equals the last value when
one exists, and the start otherwise. -/
lemma lastValueFor_foldl (key : List Char) :
    ∀ (ts : List (List Char)) (init : Option (List Char)),
      ts.foldl (lvStep key) init = (lastValueFor key ts).elim init some := by
  intro ts
  induction ts with
  | nil => intro init; simp [lastValueFor]
  | cons tok ts ih =>
    intro init
    rw [List.foldl_cons, ih]
    have hrhs : lastValueFor key (tok :: ts)
        = (lastValueFor key ts).elim (lvStep key none tok) some := by
      rw [lastValueFor, List.foldl_cons]
      exact ih (lvStep key none tok)
    rw [hrhs]
    cases hlv : lastValueFor key ts with
    | some v => simp
    | none =>
      simp only [Option.elim]
      unfold lvStep
      cases hsc : splitOnceColon tok with
      | none => simp
      | some kv =>
        by_cases hk : kv.1 = key <;> simp [hk]

/-- One token updates the five parser locals exactly at its own key: each
field becomes the update of the token value when the token carries that
key of that field and is unchanged otherwise. -/
lemma trackStep_eq (acc : TrackAcc) (tok : List Char) :
    trackStep acc tok =
      { number := (lvStep "TRACK".data none tok).elim acc.number parseU32,
        frames := (lvStep "FRAMES".data none tok).elim acc.frames
          (fun v => (parseU32 v).getD 0),
        pregap := (lvStep "PREGAP".data none tok).elim acc.pregap
          (fun v => (parseU32 v).getD 0),
        postgap := (lvStep "POSTGAP".data none tok).elim acc.postgap
          (fun v => (parseU32 v).getD 0),
        kind := (lvStep "TYPE".data none tok).elim acc.kind
          (fun v => some (decodeType v)) } := by
  unfold trackStep lvStep
  by_cases h0 : tok = []
  · subst h0
    simp [splitOnceColon]
  · rw [if_neg h0]
    cases hsc : splitOnceColon tok with
    | none => simp
    | some kv =>
      obtain ⟨k, v⟩ := kv
      by_cases h1 : k = "TRACK".data
      · subst h1
        simp [show ¬("TRACK".data = "FRAMES".data) from by decide,
          show ¬("TRACK".data = "PREGAP".data) from by decide,
          show ¬("TRACK".data = "POSTGAP".data) from by decide,
          show ¬("TRACK".data = "TYPE".data) from by decide]
      · by_cases h2 : k = "FRAMES".data
        · subst h2
          simp [h1, show ¬("FRAMES".data = "PREGAP".data) from by decide,
            show ¬("FRAMES".data = "POSTGAP".data) from by decide,
            show ¬("FRAMES".data = "TYPE".data) from by decide]
        · by_cases h3 : k = "PREGAP".data
          · subst h3
            simp [h1, h2, show ¬("PREGAP".data = "POSTGAP".data) from by decide,
              show ¬("PREGAP".data = "TYPE".data) from by decide]
          · by_cases h4 : k = "POSTGAP".data
            · subst h4
              simp [h1, h2, h3, show ¬("POSTGAP".data = "TYPE".data) from by decide]
            · by_cases h5 : k = "TYPE".data
              · subst h5
                simp [h1, h2, h3, h4]
              · simp [h1, h2, h3, h4, h5]

/-- Folding option elimination with an intermediate start collapses to one
elimination. -/
lemma elim_elim {α β : Type} (o : Option α) (x : Option α) (b : β) (f : α → β) :
    (o.elim x some).elim b f = o.elim (x.elim b f) f := by
  cases o <;> simp

/-- The full token fold of parse_track_line computes, field by field, the
update of the last token carrying the key of that field. -/
lemma foldl_trackStep (ts : List (List Char)) :
    ∀ acc : TrackAcc,
      ts.foldl trackStep acc =
        { number := (lastValueFor "TRACK".data ts).elim acc.number parseU32,
          frames := (lastValueFor "FRAMES".data ts).elim acc.frames
            (fun v => (parseU32 v).getD 0),
          pregap := (lastValueFor "PREGAP".data ts).elim acc.pregap
            (fun v => (parseU32 v).getD 0),
          postgap := (lastValueFor "POSTGAP".data ts).elim acc.postgap
            (fun v => (parseU32 v).getD 0),
          kind := (lastValueFor "TYPE".data ts).elim acc.kind
            (fun v => some (decodeType v)) } := by
  induction ts with
  | nil => intro acc; simp [lastValueFor]
  | cons tok ts ih =>
    intro acc
    have hcons : ∀ key : List Char,
        lastValueFor key (tok :: ts) = (lastValueFor key ts).elim (lvStep key none tok) some := by
      intro key
      rw [lastValueFor, List.foldl_cons]
      exact lastValueFor_foldl key ts (lvStep key none tok)
    rw [List.foldl_cons, ih (trackStep acc tok), trackStep_eq]
    simp only [hcons, elim_elim]

/-- Eliminating with default 0 equals binding the parse and defaulting 0. -/
lemma elim_getD (o : Option (List Char)) :
    o.elim 0 (fun v => (parseU32 v).getD 0) = (o.bind parseU32).getD 0 := by
  cases o <;> simp

/-- C6 (amended): the track-line parser is the total function computed from
the last token of each key: it returns a record exactly when the value of
the last TRACK token parses as a u32 and a TYPE token is present; FRAMES,
PREGAP and POSTGAP come from the last token of their key, with a malformed
or absent value treated as 0; a malformed last TRACK value drops the whole
record instead of being treated as 0. -/
theorem c6_parse_track_line_characterization (s : String) :
    parse_track_line s =
      match (lastValueFor "TRACK".data (toks s)).bind parseU32,
            (lastValueFor "TYPE".data (toks s)).map decodeType with
      | some n, some k =>
        some ⟨n, k, ((lastValueFor "FRAMES".data (toks s)).bind parseU32).getD 0,
              ((lastValueFor "PREGAP".data (toks s)).bind parseU32).getD 0,
              ((lastValueFor "POSTGAP".data (toks s)).bind parseU32).getD 0⟩
      | _, _ => none := by
  unfold parse_track_line
  rw [foldl_trackStep (toks s) ⟨none, 0, 0, 0, none⟩]
  cases h1 : lastValueFor "TRACK".data (toks s) with
  | none => cases h2 : lastValueFor "TYPE".data (toks s) <;> simp [elim_getD]
  | some v =>
    cases h2 : lastValueFor "TYPE".data (toks s) with
    | none => cases hp : parseU32 v <;> simp [hp, elim_getD]
    | some w => cases hp : parseU32 v <;> simp [hp, elim_getD]

/-- C6 counterexample: the line TRACK:x TYPE:MODE1 has both a TRACK and a
TYPE token, yet the parser returns no record, because the malformed TRACK
value is not treated as 0. -/
theorem c6_malformed_track_cex :
    (lastValueFor "TRACK".data (toks "TRACK:x TYPE:MODE1")).isSome = true ∧
    (lastValueFor "TYPE".data (toks "TRACK:x TYPE:MODE1")).isSome = true ∧
    parse_track_line "TRACK:x TYPE:MODE1" = none := by
  refine ⟨by decide, by decide, by decide⟩

/-- The readdir entry loop emits, in order, the enumerated entries whose
directory offset exceeds the resume offset, truncated to the remaining
reply capacity. -/
lemma entLoop_eq (cap : Nat) (idx : Int) :
    ∀ (l : List IndexEntry) (ent_idx : Int) (acc : List (Nat × Int × String)),
      acc.length ≤ cap →
      entLoop cap idx l ent_idx acc =
        acc ++ ((enumFrom ent_idx l).filter (fun p => decide (idx < p.2.1))).take
          (cap - acc.length) := by
  intro l
  induction l with
  | nil => intro ent_idx acc h; simp [entLoop, enumFrom]
  | cons e rest ih =>
    intro ent_idx acc hacc
    simp only [entLoop, enumFrom, List.filter_cons]
    by_cases hle : ent_idx ≤ idx
    · have hnotlt : ¬ idx < ent_idx := by omega
      rw [if_pos hle, ih (ent_idx + 1) acc hacc]
      simp [hnotlt]
    · have hlt : idx < ent_idx := by omega
      rw [if_neg hle]
      by_cases hlen : acc.length < cap
      · have hfull : replyAdd cap acc (e.ino, ent_idx, e.name)
            = (acc ++ [(e.ino, ent_idx, e.name)], false) := by
          simp [replyAdd, hlen]
        rw [hfull]
        have h1 : (acc ++ [(e.ino, ent_idx, e.name)]).length ≤ cap := by
          simp
          omega
        rw [ih (ent_idx + 1) (acc ++ [(e.ino, ent_idx, e.name)]) h1]
        have hcap1 : cap - acc.length = (cap - (acc.length + 1)) + 1 := by omega
        simp [hlt, hcap1, List.take_succ_cons]
      · have hfull : replyAdd cap acc (e.ino, ent_idx, e.name) = (acc, true) := by
          simp [replyAdd, hlen]
        rw [hfull]
        have hcap0 : cap - acc.length = 0 := by omega
        simp [hcap0]

/-- C10: a readdir on the root inode with a resume offset of at least 1
emits no synthetic dot entries at all, even at offset 1 (so a client that
resumed after the dot entry never receives the dot-dot entry), and emits
exactly the index entries at directory offsets 3, 4, ... that are strictly
greater than the resume offset, in index order, up to the reply capacity. -/
theorem c10_readdir_resume (entries : List IndexEntry) (cap : Nat) (o : Int) (ho : 1 ≤ o) :
    readdir entries cap 1 o =
      some (((enumFrom 3 entries).filter (fun p => decide (o < p.2.1))).take cap) := by
  have ho0 : ¬ (o = 0) := by omega
  unfold readdir
  rw [if_neg (by simp)]
  simp only [ho0, if_false]
  rw [entLoop_eq cap o entries 3 [] (by simp)]
  simp

/-- C10 witness: resuming at offset 1 over a one-entry index returns just
the index entry at offset 3, with no dot entries. -/
theorem c10_readdir_resume_witness :
    (1 : Int) ≤ 1 ∧
    readdir [⟨2, "a.iso", BackingKind.dvd2048, 0⟩] 10 1 1 =
      some (((enumFrom 3 [⟨2, "a.iso", BackingKind.dvd2048, 0⟩]).filter
        (fun p => decide ((1 : Int) < p.2.1))).take 10) :=
  ⟨le_refl 1, c10_readdir_resume [⟨2, "a.iso", BackingKind.dvd2048, 0⟩] 10 1 (le_refl 1)⟩

/-- Removing a found key produces a permutation with the entry in front. -/
lemma findRemove_perm (k : Nat × Nat) :
    ∀ (es : List ((Nat × Nat) × List Nat)) (v : List Nat)
      (rest : List ((Nat × Nat) × List Nat)),
      findRemove k es = some (v, rest) → es.Perm ((k, v) :: rest) := by
  intro es
  induction es with
  | nil => intro v rest h; simp [findRemove] at h
  | cons e es ih =>
    intro v rest h
    rw [findRemove] at h
    by_cases he : e.1 = k
    · rw [if_pos he] at h
      have h2 : (e.2, es) = (v, rest) := by injection h
      have hv : e.2 = v := congrArg Prod.fst h2
      have hrest : es = rest := congrArg Prod.snd h2
      subst hrest
      have he2 : e = (k, v) := by
        obtain ⟨e1, e2⟩ := e
        simp only [Prod.mk.injEq]
        exact ⟨he, hv⟩
      rw [he2]
    · rw [if_neg he] at h
      cases hrec : findRemove k es with
      | none => rw [hrec] at h; simp at h
      | some p =>
        obtain ⟨v2, rest2⟩ := p
        rw [hrec] at h
        have h2 : (v2, e :: rest2) = (v, rest) := by injection h
        have hv : v2 = v := congrArg Prod.fst h2
        have hrest : e :: rest2 = rest := congrArg Prod.snd h2
        subst hv
        subst hrest
        have hperm := ih v2 rest2 hrec
        exact (hperm.cons e).trans (List.Perm.swap (k, v2) e rest2)

/-- Permutations preserve the stored byte sum. -/
lemma sumLens_perm {es es2 : List ((Nat × Nat) × List Nat)} (h : es.Perm es2) :
    sumLens es = sumLens es2 := by
  unfold sumLens
  exact (h.map (fun e => e.2.length)).sum_eq

/-- The byte sum of a cons. -/
lemma sumLens_cons (e : (Nat × Nat) × List Nat) (es : List ((Nat × Nat) × List Nat)) :
    sumLens (e :: es) = e.2.length + sumLens es := by
  simp [sumLens]

/-- Dropping the last entry removes exactly its length from the sum. -/
lemma sumLens_getLast :
    ∀ (es : List ((Nat × Nat) × List Nat)) (e : (Nat × Nat) × List Nat),
      es.getLast? = some e → sumLens es.dropLast + e.2.length = sumLens es := by
  intro es
  induction es with
  | nil => intro e h; simp at h
  | cons x es ih =>
    intro e h
    cases es with
    | nil =>
      have hx : x = e := by simpa using h
      subst hx
      simp [sumLens]
    | cons y ys =>
      have h2 : (y :: ys).getLast? = some e := by
        simpa [List.getLast?_cons_cons] using h
      have := ih e h2
      have hdl : (x :: y :: ys).dropLast = x :: (y :: ys).dropLast := by
        simp [List.dropLast]
      rw [hdl, sumLens_cons, sumLens_cons]
      omega

/-- Dropping the last entry never increases the sum. -/
lemma sumLens_dropLast_le (es : List ((Nat × Nat) × List Nat)) :
    sumLens es.dropLast ≤ sumLens es := by
  cases hl : es.getLast? with
  | none =>
    have : es = [] := List.getLast?_eq_none.mp hl
    subst this
    simp
  | some e =>
    have := sumLens_getLast es e hl
    omega

/-- The eviction loop keeps a subset of the entries, never grows the list,
keeps the counter at least the remaining sum whenever it started that way,
subtracts exactly what it evicts, and stops either at or below the byte cap
or with an empty cache. -/
lemma evict_spec (cb : Nat) :
    ∀ (fuel : Nat) (es : List ((Nat × Nat) × List Nat)) (a : Nat),
      es.length ≤ fuel → sumLens es ≤ a →
      (∀ x ∈ (evict_cache_if_needed cb fuel es a).1, x ∈ es) ∧
      (evict_cache_if_needed cb fuel es a).1.length ≤ es.length ∧
      sumLens (evict_cache_if_needed cb fuel es a).1
        ≤ (evict_cache_if_needed cb fuel es a).2 ∧
      (evict_cache_if_needed cb fuel es a).2 + sumLens es
        = a + sumLens (evict_cache_if_needed cb fuel es a).1 ∧
      ((evict_cache_if_needed cb fuel es a).2 ≤ cb ∨
        (evict_cache_if_needed cb fuel es a).1 = []) := by
  intro fuel
  induction fuel with
  | zero =>
    intro es a hlen hsum
    have hes : es = [] := List.length_eq_zero.mp (by omega)
    subst hes
    simp [evict_cache_if_needed, sumLens]
  | succ fuel ih =>
    intro es a hlen hsum
    by_cases hle : a ≤ cb
    · rw [show evict_cache_if_needed cb (fuel + 1) es a = (es, a) from by
        simp [evict_cache_if_needed, hle]]
      dsimp only
      exact ⟨fun x hx => hx, le_refl _, hsum, by omega, Or.inl hle⟩
    · cases hlast : es.getLast? with
      | none =>
        have hes : es = [] := List.getLast?_eq_none.mp hlast
        subst hes
        rw [show evict_cache_if_needed cb (fuel + 1) ([] : List ((Nat × Nat) × List Nat)) a
            = ([], a) from by simp [evict_cache_if_needed, hle]]
        dsimp only
        exact ⟨fun x hx => hx, le_refl _, hsum, rfl, Or.inr rfl⟩
      | some e =>
        have hrec : evict_cache_if_needed cb (fuel + 1) es a
            = evict_cache_if_needed cb fuel es.dropLast (a - e.2.length) := by
          simp [evict_cache_if_needed, hle, hlast]
        have hsplit : sumLens es.dropLast + e.2.length = sumLens es :=
          sumLens_getLast es e hlast
        have hne : es ≠ [] := by
          intro hh
          rw [hh] at hlast
          simp at hlast
        have hpos : 1 ≤ es.length := List.length_pos.mpr hne
        have hlen2 : es.dropLast.length ≤ fuel := by
          have := List.length_dropLast es
          omega
        have hsum2 : sumLens es.dropLast ≤ a - e.2.length := by omega
        obtain ⟨m1, l1, s1, eq1, o1⟩ := ih es.dropLast (a - e.2.length) hlen2 hsum2
        rw [hrec]
        refine ⟨fun x hx => (List.dropLast_sublist es).subset (m1 x hx), ?_, s1, ?_, o1⟩
        · have := List.length_dropLast es
          omega
        · omega

/-- A cache hit or miss preserves domination of the byte counter over the
stored sum (the amended C3 invariant step). -/
lemma op_sum_le (cap cb : Nat) (k : Nat × Nat) (d : List Nat) (st : CacheState)
    (h : sumLens st.entries ≤ st.approx_cache_bytes) :
    sumLens ((get_cd_frame_op cap cb k d st).2).entries
      ≤ ((get_cd_frame_op cap cb k d st).2).approx_cache_bytes := by
  unfold get_cd_frame_op
  cases hfr : findRemove k st.entries with
  | some p =>
    obtain ⟨v, rest⟩ := p
    have hperm := findRemove_perm k st.entries v rest hfr
    have heq : sumLens ((k, v) :: rest) = sumLens st.entries := (sumLens_perm hperm).symm
    simpa [heq] using h
  | none =>
    have hspec := evict_spec cb st.entries.length st.entries
      (st.approx_cache_bytes + d.length) (le_refl _) (by omega)
    obtain ⟨m1, l1, s1, eq1, o1⟩ := hspec
    have hp2 : sumLens (evict_cache_if_needed cb st.entries.length st.entries
          (st.approx_cache_bytes + d.length)).1 + d.length
        ≤ (evict_cache_if_needed cb st.entries.length st.entries
          (st.approx_cache_bytes + d.length)).2 := by omega
    simp only
    unfold lruPut
    cases hfr2 : findRemove k (evict_cache_if_needed cb st.entries.length st.entries
        (st.approx_cache_bytes + d.length)).1 with
    | some q =>
      obtain ⟨v2, rest2⟩ := q
      have hperm2 := findRemove_perm k _ v2 rest2 hfr2
      have heq2 := sumLens_perm hperm2
      rw [sumLens_cons] at heq2
      rw [sumLens_cons]
      simp only at heq2 ⊢
      omega
    | none =>
      by_cases hlcap : (evict_cache_if_needed cb st.entries.length st.entries
          (st.approx_cache_bytes + d.length)).1.length = cap
      · rw [if_pos hlcap, sumLens_cons]
        have := sumLens_dropLast_le (evict_cache_if_needed cb st.entries.length st.entries
          (st.approx_cache_bytes + d.length)).1
        simp only
        omega
      · rw [if_neg hlcap, sumLens_cons]
        simp only
        omega

/-- C3 (amended): after every operation sequence from the fresh cache, the
tracked byte counter is at least the sum of the lengths of the values
currently stored; byte-cap evictions subtract the evicted sizes, so the
counter never undercounts, but it can overcount without the one-entry
bound, as the counterexample shows. -/
theorem c3_counter_dominates_sum (cap cb : Nat) (ops : List ((Nat × Nat) × List Nat)) :
    sumLens (runOps cap cb ops initCache).entries
      ≤ (runOps cap cb ops initCache).approx_cache_bytes := by
  suffices h : ∀ (ops2 : List ((Nat × Nat) × List Nat)) (st : CacheState),
      sumLens st.entries ≤ st.approx_cache_bytes →
      sumLens (runOps cap cb ops2 st).entries ≤ (runOps cap cb ops2 st).approx_cache_bytes by
    exact h ops initCache (by simp [initCache, sumLens])
  intro ops2
  induction ops2 with
  | nil => intro st h; simpa [runOps] using h
  | cons op rest ih =>
    intro st h
    rw [runOps]
    exact ih _ (op_sum_le cap cb op.1 op.2 st h)

/-- Three misses with distinct keys under a count cap of one: every
insertion evicts the previous entry by the count cap, whose 2352 bytes are
never subtracted from the counter. -/
lemma cache_drift_steps (d : List Nat) (hd : d.length = 2352) :
    (runOps 1 268435456 [((7, 0), d), ((7, 1), d), ((7, 2), d)]
      initCache).approx_cache_bytes = 7056 ∧
    sumLens (runOps 1 268435456 [((7, 0), d), ((7, 1), d), ((7, 2), d)]
      initCache).entries = 2352 := by
  simp [runOps, get_cd_frame_op, initCache, findRemove, evict_cache_if_needed, lruPut,
    sumLens, hd]

/-- C3 counterexample: with cache_hunks = 1 and the default byte cap, three
distinct 2352-byte frame misses leave the counter at 7056 while the cache
stores 2352 bytes: the counter exceeds the stored sum by two whole frames,
more than the one entry currently being inserted. -/
theorem c3_cache_counter_cex :
    (runOps (cacheCap 1) 268435456
      [((7, 0), List.replicate 2352 0), ((7, 1), List.replicate 2352 0),
       ((7, 2), List.replicate 2352 0)] initCache).approx_cache_bytes = 7056 ∧
    sumLens (runOps (cacheCap 1) 268435456
      [((7, 0), List.replicate 2352 0), ((7, 1), List.replicate 2352 0),
       ((7, 2), List.replicate 2352 0)] initCache).entries = 2352 ∧
    sumLens (runOps (cacheCap 1) 268435456
      [((7, 0), List.replicate 2352 0), ((7, 1), List.replicate 2352 0),
       ((7, 2), List.replicate 2352 0)] initCache).entries + CD_FRAME_2352
      < (runOps (cacheCap 1) 268435456
      [((7, 0), List.replicate 2352 0), ((7, 1), List.replicate 2352 0),
       ((7, 2), List.replicate 2352 0)] initCache).approx_cache_bytes := by
  have h := cache_drift_steps (List.replicate 2352 0) (List.length_replicate _ _)
  rw [show cacheCap 1 = 1 from rfl]
  refine ⟨h.1, h.2, ?_⟩
  rw [h.1, h.2]
  norm_num [CD_FRAME_2352]

/-- The inductive cache invariant behind C8: the entry count is within the
capacity, the byte counter dominates the stored sum and stays within
cache_bytes plus one frame, every stored value is one 2352-byte frame, and
an empty cache has a counter within cache_bytes. -/
def CacheInv (cap cb : Nat) (st : CacheState) : Prop :=
  st.entries.length ≤ cap ∧
  sumLens st.entries ≤ st.approx_cache_bytes ∧
  st.approx_cache_bytes ≤ cb + 2352 ∧
  (∀ e ∈ st.entries, e.2.length = 2352) ∧
  (st.entries = [] → st.approx_cache_bytes ≤ cb)

/-- One get_cd_frame operation with a 2352-byte decoded frame preserves the
cache invariant. -/
lemma op_inv (cap cb : Nat) (hcap : 1 ≤ cap) (k : Nat × Nat) (d : List Nat)
    (hd : d.length = 2352) (st : CacheState) (hInv : CacheInv cap cb st) :
    CacheInv cap cb ((get_cd_frame_op cap cb k d st).2) := by
  obtain ⟨hlen, hsum, hbyte, hall, hemp⟩ := hInv
  have hsum2 := op_sum_le cap cb k d st hsum
  unfold CacheInv
  unfold get_cd_frame_op at hsum2 ⊢
  cases hfr : findRemove k st.entries with
  | some p =>
    obtain ⟨v, rest⟩ := p
    rw [hfr] at hsum2
    dsimp only at hsum2 ⊢
    have hperm := findRemove_perm k st.entries v rest hfr
    refine ⟨by rw [← hperm.length_eq]; exact hlen, hsum2, hbyte, ?_, by simp⟩
    intro e he
    exact hall e (hperm.mem_iff.mpr he)
  | none =>
    rw [hfr] at hsum2
    dsimp only at hsum2 ⊢
    have hspec := evict_spec cb st.entries.length st.entries
      (st.approx_cache_bytes + d.length) (le_refl _) (by omega)
    obtain ⟨m1, l1, s1, eq1, o1⟩ := hspec
    have hbyte2 : (evict_cache_if_needed cb st.entries.length st.entries
        (st.approx_cache_bytes + d.length)).2 ≤ cb + 2352 := by
      rcases o1 with h | h
      · omega
      · rw [h] at eq1
        rw [show sumLens ([] : List ((Nat × Nat) × List Nat)) = 0 from rfl] at eq1
        by_cases hes : st.entries = []
        · have h0 : sumLens st.entries = 0 := by rw [hes]; rfl
          have := hemp hes
          omega
        · have h2352 : 2352 ≤ sumLens st.entries := by
            cases hes2 : st.entries with
            | nil => exact absurd hes2 hes
            | cons e es2 =>
              have he : e.2.length = 2352 := hall e (by rw [hes2]; exact List.mem_cons_self e es2)
              rw [sumLens_cons, he]
              omega
          omega
    have hlen1 : (evict_cache_if_needed cb st.entries.length st.entries
        (st.approx_cache_bytes + d.length)).1.length ≤ cap := le_trans l1 hlen
    have hall1 : ∀ e ∈ (evict_cache_if_needed cb st.entries.length st.entries
        (st.approx_cache_bytes + d.length)).1, e.2.length = 2352 :=
      fun e he => hall e (m1 e he)
    unfold lruPut at hsum2 ⊢
    cases hfr2 : findRemove k (evict_cache_if_needed cb st.entries.length st.entries
        (st.approx_cache_bytes + d.length)).1 with
    | some q =>
      obtain ⟨v2, rest2⟩ := q
      rw [hfr2] at hsum2
      dsimp only at hsum2 ⊢
      have hperm2 := findRemove_perm k _ v2 rest2 hfr2
      refine ⟨?_, hsum2, hbyte2, ?_, by simp⟩
      · have : rest2.length + 1 = (evict_cache_if_needed cb st.entries.length st.entries
            (st.approx_cache_bytes + d.length)).1.length := by
          have := hperm2.length_eq
          simpa using this.symm
        simp only [List.length_cons]
        omega
      · intro e he
        rcases List.mem_cons.mp he with h | h
        · rw [h]; exact hd
        · exact hall1 e (hperm2.mem_iff.mpr (List.mem_cons_of_mem _ h))
    | none =>
      rw [hfr2] at hsum2
      dsimp only at hsum2 ⊢
      by_cases hlcap : (evict_cache_if_needed cb st.entries.length st.entries
          (st.approx_cache_bytes + d.length)).1.length = cap
      · rw [if_pos hlcap] at hsum2 ⊢
        refine ⟨?_, hsum2, hbyte2, ?_, by simp⟩
        · simp only [List.length_cons]
          have := List.length_dropLast (evict_cache_if_needed cb st.entries.length st.entries
            (st.approx_cache_bytes + d.length)).1
          omega
        · intro e he
          rcases List.mem_cons.mp he with h | h
          · rw [h]; exact hd
          · exact hall1 e ((List.dropLast_sublist _).subset h)
      · rw [if_neg hlcap] at hsum2 ⊢
        refine ⟨?_, hsum2, hbyte2, ?_, by simp⟩
        · simp only [List.length_cons]
          omega
        · intro e he
          rcases List.mem_cons.mp he with h | h
          · rw [h]; exact hd
          · exact hall1 e h

/-- Running any sequence of 2352-byte operations preserves the invariant. -/
lemma runOps_inv (cap cb : Nat) (hcap : 1 ≤ cap) :
    ∀ (ops : List ((Nat × Nat) × List Nat)) (st : CacheState),
      CacheInv cap cb st → (∀ op ∈ ops, op.2.length = 2352) →
      CacheInv cap cb (runOps cap cb ops st) := by
  intro ops
  induction ops with
  | nil => intro st h _; simpa [runOps] using h
  | cons op rest ih =>
    intro st h hops
    rw [runOps]
    exact ih _ (op_inv cap cb hcap op.1 op.2 (hops op (by simp)) st h)
      (fun o ho => hops o (by simp [ho]))

/-- C8: after every sequence of frame-cache operations from the fresh
cache, the entry count never exceeds the configured cap (cache_hunks, with
0 treated as 64) and the byte counter never exceeds cache_bytes plus one
2352-byte frame. -/
theorem c8_cache_bounds (n cb : Nat) (ops : List ((Nat × Nat) × List Nat))
    (hops : ∀ op ∈ ops, op.2.length = 2352) :
    (runOps (cacheCap n) cb ops initCache).entries.length ≤ cacheCap n ∧
    (runOps (cacheCap n) cb ops initCache).approx_cache_bytes ≤ cb + 2352 := by
  have hcap : 1 ≤ cacheCap n := by unfold cacheCap; split <;> omega
  have hinit : CacheInv (cacheCap n) cb initCache := by
    refine ⟨by simp [initCache], by simp [initCache, sumLens], by simp [initCache], ?_, ?_⟩
    · intro e he; simp [initCache] at he
    · intro _; simp [initCache]
  have h := runOps_inv (cacheCap n) cb hcap ops initCache hinit hops
  exact ⟨h.1, h.2.2.1⟩

/-- C8 witness: one miss with a 2352-byte frame under cache_hunks = 0 (cap
64) and cache_bytes = 100 stays within both bounds. -/
theorem c8_cache_bounds_witness :
    (∀ op ∈ [(((1 : Nat), (0 : Nat)), List.replicate 2352 (0 : Nat))], op.2.length = 2352) ∧
    ((runOps (cacheCap 0) 100 [((1, 0), List.replicate 2352 0)]
        initCache).entries.length ≤ cacheCap 0 ∧
      (runOps (cacheCap 0) 100 [((1, 0), List.replicate 2352 0)]
        initCache).approx_cache_bytes ≤ 100 + 2352) :=
  ⟨fun op hop => by
      rw [List.mem_singleton] at hop
      subst hop
      exact List.length_replicate _ _,
   c8_cache_bounds 0 100 _ (fun op hop => by
      rw [List.mem_singleton] at hop
      subst hop
      exact List.length_replicate _ _)⟩

/-- C9 witness: at hunk_size = 2048 the decoder errors out, and at
hunk_size = 4704 with full hunk buffers the decoded frame of index 5 has
exactly 2352 bytes taken from an in-bounds slice. -/
theorem c9_hunk_size_guard_witness :
    get_cd_frame_decode (fun _ => List.replicate 4704 0) 2048 0 =
      Except.error "invalid hunk size for CD" ∧
    ∃ l, get_cd_frame_decode (fun _ => List.replicate 4704 0) 4704 5 = Except.ok l ∧
      l.length = 2352 ∧ 5 % (4704 / 2352) * 2352 + 2352 ≤ 4704 :=
  ⟨(c9_hunk_size_guard (fun _ => List.replicate 4704 0) 2048 0).1 (by norm_num),
   (c9_hunk_size_guard (fun _ => List.replicate 4704 0) 4704 5).2 (by norm_num)
     (fun _ => List.length_replicate _ _)⟩

end ChdFuse
